import Mathlib

/-!
Verification of the compgraph streaming table library against its specification.

The embedding follows `compgraph/operations.py` and `compgraph/graph.py`:

* a record (`TRow`) is a Python dict from field names to dynamically typed
  values; we embed it as an association list with unique keys (Python dicts
  cannot hold duplicate keys), insertion ordered, which is what dict
  iteration order, `row[k]`, `row[k] = v` and `d1 | d2` operate on;
* values are embedded by `Value` (integers and strings suffice for the claims
  at hand); Python raises `TypeError` on cross-type comparison, the embedding
  totalises the order (integers before strings) — the claims only compare
  keys of streams that are consistently typed, where the two coincide;
* `row[k]` on a missing key raises `KeyError`; the embedding uses
  `List.lookup`, whose `none` result stands for that error where a claim
  needs to see it;
* Python generators are finite single-pass streams; we embed a stream as the
  list of records it yields.
-/

/-- Dynamically typed field values (`tp.Any` in the source). -/
inductive Value where
  | vInt : Int → Value
  | vStr : String → Value
deriving DecidableEq, Repr

/-- A table row: `TRow = tp.Dict[str, tp.Any]` from `operations.py`. -/
abbrev TRow := List (String × Value)

/-- Total order on values, mirroring Python `<=` on each type
(cross-type comparison is totalised: integers before strings). -/
def Value.leB : Value → Value → Bool
  | .vInt a, .vInt b => decide (a ≤ b)
  | .vInt _, .vStr _ => true
  | .vStr _, .vInt _ => false
  | .vStr a, .vStr b => decide (a ≤ b)

/-- A key projection: the tuple `tuple(row[key] for key in keys)` built by
`Join.__call__`'s `grouper` (and, as a list, by `Reduce.__call__`'s
`get_value`).  A `none` entry records a `KeyError` on a missing field. -/
abbrev KeyT := List (Option Value)

/-- Order on one component of a key tuple (missing fields sort first). -/
def optLeB : Option Value → Option Value → Bool
  | none, _ => true
  | some _, none => false
  | some a, some b => a.leB b

/-- Lexicographic comparison of key tuples, as Python compares the tuples
produced by `grouper` in `key_b >= key_a`. -/
def keyLeB : KeyT → KeyT → Bool
  | [], _ => true
  | _ :: _, [] => false
  | a :: as, b :: bs => if a = b then keyLeB as bs else optLeB a b

/-- The key projection used by `Join.__call__`'s local `grouper` (as a tuple)
and by `Reduce.__call__`'s local `get_value` (as a list): the values of `row`
at the field names in `keys`. -/
def grouper (keys : List String) (row : TRow) : KeyT :=
  keys.map (fun k => List.lookup k row)

/-- `itertools.groupby(stream, key=f)`: the maximal runs of consecutive
elements with equal keys, each run paired with its key, in stream order.
Groups are yielded lazily in Python; the embedding materialises each run. -/
def groupRuns {α κ : Type} [DecidableEq κ] (f : α → κ) : List α → List (κ × List α)
  | [] => []
  | a :: as =>
    (f a, a :: as.takeWhile (fun b => decide (f b = f a))) ::
      groupRuns f (as.dropWhile (fun b => decide (f b = f a)))
termination_by l => l.length
decreasing_by
  simp only [List.length_cons]
  exact Nat.lt_succ_of_le (List.dropWhile_sublist _).length_le

/-- `Reduce.__call__`: group the (key-sorted) input by the `get_value`
projection with `itertools.groupby` and concatenate the reducer's output for
each group.  The reducer receives the key names and the group, as in
`self.reducer(self.keys, g)`. -/
def reduceCall (reducer : List String → List TRow → List TRow)
    (keys : List String) (rows : List TRow) : List TRow :=
  (groupRuns (grouper keys) rows).flatMap (fun p => reducer keys p.2)

/-- `row[k] = v` on a Python dict: replace in place if the key exists
(keeping its position), else append a new entry. -/
def setField : TRow → String → Value → TRow
  | [], k, v => [(k, v)]
  | (k1, v1) :: rest, k, v =>
    if k1 = k then (k1, v) :: rest else (k1, v1) :: setField rest k v

/-- `d1 | d2` on Python dicts: the keys of `d1` in order (values overridden
by `d2` where present), then the keys of `d2` not in `d1`, in order. -/
def dictUnion (d1 d2 : TRow) : TRow :=
  d1.map (fun kv => (kv.1, (List.lookup kv.1 d2).getD kv.2)) ++
    d2.filter (fun kv => (List.lookup kv.1 d1).isNone)

/-- The suffix set `{k for k in row_a.keys() if k in row_b and k not in keys}`
of `Joiner._inner_join` (as the list of qualifying names of `ra`, in order;
only membership matters). -/
def collisionSet (keys : List String) (ra rb : TRow) : List String :=
  (ra.map Prod.fst).filter
    (fun k => (List.lookup k rb).isSome && !(keys.contains k))

/-- The dict comprehension `{k + suffix if k in suffSet else k: row[k] ...}`
of `Joiner._inner_join`.  (A field literally named `k + suffix` next to a
renamed `k` would collide inside the Python dict; the association list keeps
both entries, and the collision-free theorems below add freshness
hypotheses ruling that pathology out.) -/
def renameRow (suffix : String) (suffSet : List String) (row : TRow) : TRow :=
  row.map (fun kv => (if suffSet.contains kv.1 then kv.1 ++ suffix else kv.1, kv.2))

/-- One output row of `Joiner._inner_join`: the `|`-union of the two
suffix-renamed sides. -/
def mergePair (sa sb : String) (suffA suffB : List String) (ra rb : TRow) : TRow :=
  dictUnion (renameRow sa suffA ra) (renameRow sb suffB rb)

/-- `Joiner._inner_join`: materialise the right side, compute both suffix
sets from the first pair `(rows_a[0], rows_b[0])` only (`suffix_a is None`
check), then emit the cross product of merged pairs in order. -/
def innerJoinRows (sa sb : String) (keys : List String)
    (rowsA rowsB : List TRow) : List TRow :=
  match rowsA, rowsB with
  | ra0 :: _, rb0 :: _ =>
    rowsA.flatMap (fun ra =>
      rowsB.map (fun rb =>
        mergePair sa sb (collisionSet keys ra0 rb0) (collisionSet keys rb0 ra0) ra rb))
  | _, _ => []

/-- `InnerJoiner.__call__` with suffixes `sa`, `sb` (defaults `"_1"`,
`"_2"`): yield the inner join iff at least one side is truthy (non-empty). -/
def innerJoiner (sa sb : String) (keys : List String)
    (ga gb : List TRow) : List TRow :=
  if ga = [] ∧ gb = [] then [] else innerJoinRows sa sb keys ga gb

/-- The sort-merge walk of `Join.__call__` over the two grouped streams,
after `itertools.groupby`: advance the side(s) whose `need_take` flag the
previous iteration set.  The branch tests mirror
`key_a == key_b` / `key_a is not None and (key_b is None or key_b >= key_a)`
(an exhausted side stands for `key None`). -/
def joinGroups (joiner : List String → List TRow → List TRow → List TRow)
    (keys : List String) :
    List (KeyT × List TRow) → List (KeyT × List TRow) → List TRow
  | [], [] => []
  | (_, ga) :: as, [] => joiner keys ga [] ++ joinGroups joiner keys as []
  | [], (_, gb) :: bs => joiner keys [] gb ++ joinGroups joiner keys [] bs
  | (ka, ga) :: as, (kb, gb) :: bs =>
    if ka = kb then joiner keys ga gb ++ joinGroups joiner keys as bs
    else if keyLeB ka kb then
      joiner keys ga [] ++ joinGroups joiner keys as ((kb, gb) :: bs)
    else
      joiner keys [] gb ++ joinGroups joiner keys ((ka, ga) :: as) bs
termination_by gs hs => gs.length + hs.length

/-- `Join.__call__`: group both inputs by the key projection and run the
sort-merge walk. -/
def joinCall (joiner : List String → List TRow → List TRow → List TRow)
    (keys : List String) (rowsA rowsB : List TRow) : List TRow :=
  joinGroups joiner keys
    (groupRuns (grouper keys) rowsA) (groupRuns (grouper keys) rowsB)

/-- The `(rows_a, rows_b)` argument pairs of the joiner invocations made by
the sort-merge walk of `Join.__call__`, in order. -/
def joinInvocations :
    List (KeyT × List TRow) → List (KeyT × List TRow) → List (List TRow × List TRow)
  | [], [] => []
  | (_, ga) :: as, [] => (ga, []) :: joinInvocations as []
  | [], (_, gb) :: bs => ([], gb) :: joinInvocations [] bs
  | (ka, ga) :: as, (kb, gb) :: bs =>
    if ka = kb then (ga, gb) :: joinInvocations as bs
    else if keyLeB ka kb then (ga, []) :: joinInvocations as ((kb, gb) :: bs)
    else ([], gb) :: joinInvocations ((ka, ga) :: as) bs
termination_by gs hs => gs.length + hs.length

/-- The `while True` loop of `Join.__call__` with an explicit iteration
budget: one unit of fuel per iteration, `none` when the budget is exhausted
before the loop breaks. -/
def joinLoopFuel (joiner : List String → List TRow → List TRow → List TRow)
    (keys : List String) :
    Nat → List (KeyT × List TRow) → List (KeyT × List TRow) → Option (List TRow)
  | 0, _, _ => none
  | _ + 1, [], [] => some []
  | n + 1, (_, ga) :: as, [] =>
    (joinLoopFuel joiner keys n as []).map (joiner keys ga [] ++ ·)
  | n + 1, [], (_, gb) :: bs =>
    (joinLoopFuel joiner keys n [] bs).map (joiner keys [] gb ++ ·)
  | n + 1, (ka, ga) :: as, (kb, gb) :: bs =>
    if ka = kb then (joinLoopFuel joiner keys n as bs).map (joiner keys ga gb ++ ·)
    else if keyLeB ka kb then
      (joinLoopFuel joiner keys n as ((kb, gb) :: bs)).map (joiner keys ga [] ++ ·)
    else
      (joinLoopFuel joiner keys n ((ka, ga) :: as) bs).map (joiner keys [] gb ++ ·)

/-- The cross product of key-matching group pairs, following the spec's
words for claim C1: for each left group in (ascending) stream order, the
inner-join rows against the right group of the same key, or nothing when the
key is absent on the right. -/
def innerJoinSpecOutput (sa sb : String) (keys : List String)
    (rowsA rowsB : List TRow) : List TRow :=
  (groupRuns (grouper keys) rowsA).flatMap (fun p =>
    match (groupRuns (grouper keys) rowsB).find? (fun q => decide (q.1 = p.1)) with
    | some q => innerJoinRows sa sb keys p.2 q.2
    | none => [])

/-- `string.punctuation` from CPython. -/
def punctuationChars : List Char :=
  ['!', Char.ofNat 34, '#', '$', '%', '&', Char.ofNat 39, '(', ')', '*', '+',
   ',', '-', '.', '/', ':', ';', '<', '=', '>', '?', '@', '[', Char.ofNat 92,
   ']', '^', '_', Char.ofNat 96, Char.ofNat 123, '|', Char.ofNat 125, '~']

/-- `s.translate(str.maketrans('', '', string.punctuation))`: delete every
punctuation character. -/
def stripPunct (s : String) : String :=
  String.mk (s.data.filter (fun c => !punctuationChars.contains c))

/-- `FilterPunctuation.__call__`: `row[self.column] = row[self.column].
translate(...)` then `yield row`.  The result is the state of the caller's
row object after the call (the assignment mutates it in place) paired with
the yielded rows; `none` stands for the `KeyError`/`AttributeError` raised
when the column is missing or not a string. -/
def filterPunctuationCall (column : String) (row : TRow) :
    Option (TRow × List TRow) :=
  match List.lookup column row with
  | some (Value.vStr s) =>
    some (setField row column (Value.vStr (stripPunct s)),
      [setField row column (Value.vStr (stripPunct s))])
  | _ => none

/-- `LowerCase.__call__`: `row[self.column] = row[self.column].lower()` then
`yield row`, with the same in-place-mutation reading as
`filterPunctuationCall`. -/
def lowerCaseCall (column : String) (row : TRow) : Option (TRow × List TRow) :=
  match List.lookup column row with
  | some (Value.vStr s) =>
    some (setField row column (Value.vStr s.toLower),
      [setField row column (Value.vStr s.toLower)])
  | _ => none

/-- Modelled from the spec: the module `compgraph/external_sort.py`
(`ExternalSort`, appended by `Graph.sort`) is not among the repository
sources — only its import and call sites are.  Per the spec (§4.3), the sort
stage emits the same records key-sorted by the lexicographic order of the
key tuple, stably (run generation plus k-way merge is an implementation
detail of the same function).  We model it as a stable merge sort by the key
projection. -/
def externalSort (keys : List String) (rows : List TRow) : List TRow :=
  rows.mergeSort (fun a b => keyLeB (grouper keys a) (grouper keys b))

/-- The standard-library mappers needed by the graph-builder claims, as
first-class stage payloads. -/
inductive MapperD where
  | dummyMapper : MapperD
  | filterPunctuationM : String → MapperD
  | lowerCaseM : String → MapperD
deriving DecidableEq, Repr

/-- Reducer payloads for graph stages. -/
inductive ReducerD where
  | firstReducer : ReducerD
  | countR : String → ReducerD
deriving DecidableEq, Repr

/-- Joiner payloads for graph stages. -/
inductive JoinerD where
  | innerJ | outerJ | leftJ | rightJ
deriving DecidableEq, Repr

/-- One element of `Graph.operations`: what `.map`, `.reduce`, `.sort` and
`.join` append (for `.join`, the closure captures the right-hand graph,
recorded by its source name and operations-list reference). -/
inductive Stage where
  | mapStage : MapperD → Stage
  | reduceStage : ReducerD → List String → Stage
  | sortStage : List String → Stage
  | joinStage : JoinerD → String → Nat → List String → Stage
deriving DecidableEq, Repr

/-- The mutable heap of Python list objects holding `Graph.operations`
values; a graph's `operations` slot is a reference into it. -/
structure Store where
  cells : List (List Stage)
deriving Repr

/-- A `Graph` object built by `graph_from_iter`: the bound source name and
the reference to its `operations` list. -/
structure GraphObj where
  source : String
  opsRef : Nat
deriving DecidableEq, Repr

/-- The stage list a graph currently refers to. -/
def stagesOf (s : Store) (g : GraphObj) : List Stage :=
  s.cells.getD g.opsRef []

/-- `Graph.graph_from_iter(name)`: a fresh graph with an empty operations
list and the source name bound. -/
def graphFromIter (s : Store) (name : String) : Store × GraphObj :=
  ({ cells := s.cells ++ [[]] }, { source := name, opsRef := s.cells.length })

/-- `Graph.__copy__`: `copy.copy` of each slot — for the operations list, a
new list object with the same contents. -/
def copyGraph (s : Store) (g : GraphObj) : Store × GraphObj :=
  ({ cells := s.cells ++ [stagesOf s g] }, { g with opsRef := s.cells.length })

/-- `list.append` on the list object at `r` (in place). -/
def appendStage (s : Store) (r : Nat) (st : Stage) : Store :=
  { cells := s.cells.set r (s.cells.getD r [] ++ [st]) }

/-- `Graph.map`: copy the graph, then append a `Map` stage to the copy's
operations list. -/
def graphMap (s : Store) (g : GraphObj) (m : MapperD) : Store × GraphObj :=
  let sc := copyGraph s g
  (appendStage sc.1 sc.2.opsRef (Stage.mapStage m), sc.2)

/-- `Graph.reduce`: copy, then append a `Reduce` stage. -/
def graphReduce (s : Store) (g : GraphObj) (r : ReducerD) (keys : List String) :
    Store × GraphObj :=
  let sc := copyGraph s g
  (appendStage sc.1 sc.2.opsRef (Stage.reduceStage r keys), sc.2)

/-- `Graph.sort`: copy, then append an `ExternalSort` stage. -/
def graphSort (s : Store) (g : GraphObj) (keys : List String) : Store × GraphObj :=
  let sc := copyGraph s g
  (appendStage sc.1 sc.2.opsRef (Stage.sortStage keys), sc.2)

/-- `Graph.join`: copy, then append the join closure over the other graph. -/
def graphJoin (s : Store) (g : GraphObj) (j : JoinerD) (other : GraphObj)
    (keys : List String) : Store × GraphObj :=
  let sc := copyGraph s g
  (appendStage sc.1 sc.2.opsRef
    (Stage.joinStage j other.source other.opsRef keys), sc.2)

/-- The mappers a run of the graph hands records to: exactly the payloads of
the `Map` stages in the graph's operations list (`run` iterates
`self.operations`, and a `Map` stage applies its mapper to the records that
stream through it). -/
def executedMappers (s : Store) (g : GraphObj) : List MapperD :=
  (stagesOf s g).filterMap (fun st =>
    match st with
    | Stage.mapStage m => some m
    | _ => none)

/-- `Graph.run(**kwargs)` for an iterator-source graph: resolve
`kwargs[self.source]` first — a missing name raises `KeyError` before the
stage loop — then thread the stream through the stages in order and
materialise the result.  The per-stage semantics is a parameter so that the
run-start failure is established for every interpretation of the stages. -/
def runGraph (applyStage : Stage → List TRow → List TRow) (s : Store)
    (g : GraphObj) (inputs : String → Option (List TRow)) :
    Except String (List TRow) :=
  match inputs g.source with
  | none => Except.error g.source
  | some rows =>
    Except.ok ((stagesOf s g).foldl (fun acc st => applyStage st acc) rows)


/-- The row `_inner_join` emits for the matched pair `(ra, rb)` when the
suffix name-sets are those of this same pair (with the default suffixes);
used to state the suffix-policy claim. -/
def pairMergedRow (keys : List String) (ra rb : TRow) : TRow :=
  mergePair "_1" "_2" (collisionSet keys ra rb) (collisionSet keys rb ra) ra rb

theorem Value.leB_refl (a : Value) : a.leB a = true := by
  cases a <;> simp [Value.leB]

theorem Value.leB_total (a b : Value) : a.leB b = true ∨ b.leB a = true := by
  cases a with
  | vInt a =>
    cases b with
    | vInt b => simpa [Value.leB] using Int.le_total a b
    | vStr b => simp [Value.leB]
  | vStr a =>
    cases b with
    | vInt b => simp [Value.leB]
    | vStr b => simpa [Value.leB] using le_total a b

theorem Value.leB_antisymm {a b : Value} (h1 : a.leB b = true) (h2 : b.leB a = true) :
    a = b := by
  cases a <;> cases b <;> simp_all [Value.leB]
  · omega
  · exact String.ext (le_antisymm h1 h2)

theorem Value.leB_trans {a b c : Value} (h1 : a.leB b = true) (h2 : b.leB c = true) :
    a.leB c = true := by
  cases a <;> cases b <;> cases c <;> simp_all [Value.leB]
  · omega
  · exact le_trans h1 h2

theorem optLeB_refl (a : Option Value) : optLeB a a = true := by
  cases a <;> simp [optLeB, Value.leB_refl]

theorem optLeB_total (a b : Option Value) : optLeB a b = true ∨ optLeB b a = true := by
  cases a <;> cases b <;> simp [optLeB, Value.leB_total]

theorem optLeB_antisymm {a b : Option Value} (h1 : optLeB a b = true)
    (h2 : optLeB b a = true) : a = b := by
  cases a <;> cases b <;> simp_all [optLeB]
  exact Value.leB_antisymm h1 h2

theorem optLeB_trans {a b c : Option Value} (h1 : optLeB a b = true)
    (h2 : optLeB b c = true) : optLeB a c = true := by
  cases a <;> cases b <;> cases c <;> simp_all [optLeB]
  exact Value.leB_trans h1 h2

theorem keyLeB_refl (a : KeyT) : keyLeB a a = true := by
  induction a with
  | nil => rfl
  | cons x xs ih => simp [keyLeB, ih]

theorem keyLeB_total (a b : KeyT) : keyLeB a b = true ∨ keyLeB b a = true := by
  induction a generalizing b with
  | nil => left; rfl
  | cons x xs ih =>
    cases b with
    | nil => right; rfl
    | cons y ys =>
      by_cases hxy : x = y
      · subst hxy
        simpa [keyLeB] using ih ys
      · have hyx : y ≠ x := fun h => hxy h.symm
        simpa [keyLeB, hxy, hyx] using optLeB_total x y

theorem keyLeB_antisymm {a b : KeyT} (h1 : keyLeB a b = true)
    (h2 : keyLeB b a = true) : a = b := by
  induction a generalizing b with
  | nil =>
    cases b with
    | nil => rfl
    | cons y ys => simp [keyLeB] at h2
  | cons x xs ih =>
    cases b with
    | nil => simp [keyLeB] at h1
    | cons y ys =>
      by_cases hxy : x = y
      · subst hxy
        simp only [keyLeB, if_pos rfl] at h1 h2
        exact congrArg (x :: ·) (ih h1 h2)
      · have hyx : y ≠ x := fun h => hxy h.symm
        simp only [keyLeB, if_neg hxy, if_neg hyx] at h1 h2
        exact absurd (optLeB_antisymm h1 h2) hxy

theorem keyLeB_trans {a b c : KeyT} (h1 : keyLeB a b = true)
    (h2 : keyLeB b c = true) : keyLeB a c = true := by
  induction a generalizing b c with
  | nil => rfl
  | cons x xs ih =>
    cases b with
    | nil => simp [keyLeB] at h1
    | cons y ys =>
      cases c with
      | nil => simp [keyLeB] at h2
      | cons z zs =>
        by_cases hxy : x = y <;> by_cases hyz : y = z
        · subst hxy; subst hyz
          simp only [keyLeB, if_pos rfl] at h1 h2 ⊢
          exact ih h1 h2
        · subst hxy
          simp only [keyLeB, if_pos rfl, if_neg hyz] at h1 h2 ⊢
          exact h2
        · subst hyz
          simp only [keyLeB, if_neg hxy] at h1 ⊢
          exact h1
        · simp only [keyLeB, if_neg hxy, if_neg hyz] at h1 h2
          by_cases hxz : x = z
          · subst hxz
            exact absurd (optLeB_antisymm h1 h2) hxy
          · simp only [keyLeB, if_neg hxz]
            exact optLeB_trans h1 h2

theorem keyLeB_of_not_le {a b : KeyT} (h : ¬ keyLeB a b = true) : keyLeB b a = true := by
  rcases keyLeB_total a b with h1 | h1
  · exact absurd h1 h
  · exact h1

theorem groupRuns_nil {α κ : Type} [DecidableEq κ] (f : α → κ) : groupRuns f [] = [] := by
  simp [groupRuns]

theorem groupRuns_cons {α κ : Type} [DecidableEq κ] (f : α → κ) (a : α) (as : List α) :
    groupRuns f (a :: as) =
      (f a, a :: as.takeWhile (fun b => decide (f b = f a))) ::
        groupRuns f (as.dropWhile (fun b => decide (f b = f a))) := by
  simp [groupRuns]

/-- Each group of `groupRuns` is non-empty (as for `itertools.groupby`). -/
theorem groupRuns_group_ne_nil {α κ : Type} [DecidableEq κ] {f : α → κ} {l : List α}
    {p : κ × List α} (hp : p ∈ groupRuns f l) : p.2 ≠ [] := by
  induction l using groupRuns.induct f with
  | case1 => simp [groupRuns_nil] at hp
  | case2 a as ih =>
    rw [groupRuns_cons] at hp
    rcases List.mem_cons.mp hp with hp | hp
    · subst hp; simp
    · exact ih hp

/-- All members of a group carry the group's key. -/
theorem groupRuns_group_key {α κ : Type} [DecidableEq κ] {f : α → κ} {l : List α}
    {p : κ × List α} (hp : p ∈ groupRuns f l) : ∀ y ∈ p.2, f y = p.1 := by
  induction l using groupRuns.induct f with
  | case1 => simp [groupRuns_nil] at hp
  | case2 a as ih =>
    rw [groupRuns_cons] at hp
    rcases List.mem_cons.mp hp with hp | hp
    · subst hp
      intro y hy
      rcases List.mem_cons.mp hy with hy | hy
      · subst hy; rfl
      · simpa using List.mem_takeWhile_imp hy
    · exact ih hp

/-- Members of groups are members of the stream. -/
theorem groupRuns_group_subset {α κ : Type} [DecidableEq κ] {f : α → κ} {l : List α}
    {p : κ × List α} (hp : p ∈ groupRuns f l) : ∀ y ∈ p.2, y ∈ l := by
  induction l using groupRuns.induct f with
  | case1 => simp [groupRuns_nil] at hp
  | case2 a as ih =>
    rw [groupRuns_cons] at hp
    rcases List.mem_cons.mp hp with hp | hp
    · subst hp
      intro y hy
      rcases List.mem_cons.mp hy with hy | hy
      · rw [hy]; exact List.mem_cons_self a as
      · exact List.mem_cons_of_mem a ((List.takeWhile_sublist _).mem hy)
    · intro y hy
      exact List.mem_cons_of_mem a ((List.dropWhile_sublist _).mem (ih hp y hy))

/-- Every key of `groupRuns` is realised by a member of the stream. -/
theorem groupRuns_key_mem {α κ : Type} [DecidableEq κ] {f : α → κ} {l : List α}
    {p : κ × List α} (hp : p ∈ groupRuns f l) : ∃ x ∈ l, f x = p.1 := by
  rcases List.exists_mem_of_ne_nil _ (groupRuns_group_ne_nil hp) with ⟨y, hy⟩
  exact ⟨y, groupRuns_group_subset hp y hy, groupRuns_group_key hp y hy⟩

/-- In a key-sorted tail whose elements all dominate `k`, everything left
after dropping the run of `k`-keyed elements has a key strictly above `k`. -/
theorem mem_dropWhile_key_ne {α κ : Type} [DecidableEq κ] {f : α → κ} {le : κ → κ → Bool}
    (htrans : ∀ a b c, le a b = true → le b c = true → le a c = true)
    (hanti : ∀ a b, le a b = true → le b a = true → a = b) :
    ∀ (as : List α) (k : κ), (∀ y ∈ as, le k (f y) = true) →
      as.Pairwise (fun x y => le (f x) (f y) = true) →
      ∀ x ∈ as.dropWhile (fun b => decide (f b = k)), f x ≠ k ∧ le k (f x) = true := by
  intro as
  induction as with
  | nil => intro k _ _ x hx; simp [List.dropWhile] at hx
  | cons b bs ih =>
    intro k hdom hpw x hx
    rcases List.pairwise_cons.mp hpw with ⟨hb, hbs⟩
    by_cases hbk : f b = k
    · rw [List.dropWhile_cons_of_pos (by simpa using hbk)] at hx
      exact ih k (fun y hy => hdom y (List.mem_cons_of_mem b hy)) hbs x hx
    · rw [List.dropWhile_cons_of_neg (by simpa using hbk)] at hx
      rcases List.mem_cons.mp hx with hx | hx
      · rw [hx]
        exact ⟨hbk, hdom b (List.mem_cons_self b bs)⟩
      · have h1 : le (f b) (f x) = true := hb x hx
        have h2 : le k (f x) = true :=
          htrans _ _ _ (hdom b (List.mem_cons_self b bs)) h1
        refine ⟨fun hexk => hbk ?_, h2⟩
        rw [hexk] at h1
        exact (hanti _ _ (hdom b (List.mem_cons_self b bs)) h1).symm

/-- A key-sorted stream groups into runs with strictly increasing keys. -/
theorem groupRuns_keys_strict {α κ : Type} [DecidableEq κ] {f : α → κ} {le : κ → κ → Bool}
    (htrans : ∀ a b c, le a b = true → le b c = true → le a c = true)
    (hanti : ∀ a b, le a b = true → le b a = true → a = b)
    {l : List α} (hs : l.Pairwise (fun x y => le (f x) (f y) = true)) :
    ((groupRuns f l).map Prod.fst).Pairwise (fun a b => le a b = true ∧ a ≠ b) := by
  induction l using groupRuns.induct f with
  | case1 => simp [groupRuns_nil]
  | case2 a as ih =>
    rcases List.pairwise_cons.mp hs with ⟨ha, has⟩
    have hrest : (as.dropWhile (fun b => decide (f b = f a))).Pairwise
        (fun x y => le (f x) (f y) = true) :=
      List.Pairwise.sublist (List.dropWhile_sublist _) has
    rw [groupRuns_cons]
    rw [List.map_cons]
    refine List.pairwise_cons.mpr ⟨?_, ih hrest⟩
    intro k hk
    rcases List.mem_map.mp hk with ⟨p, hp, hpk⟩
    rcases groupRuns_key_mem hp with ⟨x, hx, hfx⟩
    have := mem_dropWhile_key_ne (f := f) htrans hanti as (f a) ha has x hx
    rw [hfx, hpk] at this
    exact ⟨this.2, fun h => this.1 h.symm⟩

/-- In a key-sorted stream each run is the whole equivalence class of its key,
in input order. -/
theorem groupRuns_group_eq_filter {α κ : Type} [DecidableEq κ] {f : α → κ}
    {le : κ → κ → Bool}
    (htrans : ∀ a b c, le a b = true → le b c = true → le a c = true)
    (hanti : ∀ a b, le a b = true → le b a = true → a = b)
    {l : List α} (hs : l.Pairwise (fun x y => le (f x) (f y) = true)) :
    ∀ p ∈ groupRuns f l, p.2 = l.filter (fun x => decide (f x = p.1)) := by
  induction l using groupRuns.induct f with
  | case1 => simp [groupRuns_nil]
  | case2 a as ih =>
    rcases List.pairwise_cons.mp hs with ⟨ha, has⟩
    have hrest : (as.dropWhile (fun b => decide (f b = f a))).Pairwise
        (fun x y => le (f x) (f y) = true) :=
      List.Pairwise.sublist (List.dropWhile_sublist _) has
    intro p hp
    rw [groupRuns_cons] at hp
    rcases List.mem_cons.mp hp with hp | hp
    · subst hp
      show a :: as.takeWhile (fun b => decide (f b = f a)) =
          (a :: as).filter (fun x => decide (f x = f a))
      rw [List.filter_cons_of_pos (by simp)]
      refine congrArg (a :: ·) ?_
      have hsplit : as = as.takeWhile (fun b => decide (f b = f a)) ++
          as.dropWhile (fun b => decide (f b = f a)) :=
        (List.takeWhile_append_dropWhile _ _).symm
      conv_rhs => rw [hsplit]
      rw [List.filter_append]
      have h1 : (as.takeWhile (fun b => decide (f b = f a))).filter
          (fun x => decide (f x = f a)) = as.takeWhile (fun b => decide (f b = f a)) :=
        List.filter_eq_self.mpr (fun x hx => by simpa using List.mem_takeWhile_imp hx)
      have h2 : (as.dropWhile (fun b => decide (f b = f a))).filter
          (fun x => decide (f x = f a)) = [] := by
        rw [List.filter_eq_nil_iff]
        intro x hx
        have := mem_dropWhile_key_ne (f := f) htrans hanti as (f a) ha has x hx
        simpa using this.1
      rw [h1, h2, List.append_nil]
    · have hkey_ne : ∀ y ∈ a :: as.takeWhile (fun b => decide (f b = f a)), f y ≠ p.1 := by
        rcases groupRuns_key_mem hp with ⟨x, hx, hfx⟩
        have hxne := mem_dropWhile_key_ne (f := f) htrans hanti as (f a) ha has x hx
        intro y hy
        have hya : f y = f a := by
          rcases List.mem_cons.mp hy with hy | hy
          · rw [hy]
          · simpa using List.mem_takeWhile_imp hy
        rw [hya, ← hfx]
        intro hax
        exact hxne.1 hax.symm
      rw [ih hrest p hp]
      have hsplit : a :: as = (a :: as.takeWhile (fun b => decide (f b = f a))) ++
          as.dropWhile (fun b => decide (f b = f a)) := by
        simp [List.takeWhile_append_dropWhile]
      rw [hsplit, List.filter_append]
      have h0 : (a :: as.takeWhile (fun b => decide (f b = f a))).filter
          (fun x => decide (f x = p.1)) = [] := by
        rw [List.filter_eq_nil_iff]
        intro x hx
        simpa using hkey_ne x hx
      rw [h0, List.nil_append]

/-- `dedup` of a constant block followed by a tail avoiding the constant. -/
theorem dedup_const_block {κ : Type} [DecidableEq κ] (k : κ) :
    ∀ (xs ys : List κ), (∀ x ∈ xs, x = k) → k ∉ ys →
      ((k :: xs) ++ ys).dedup = k :: ys.dedup := by
  intro xs
  induction xs with
  | nil =>
    intro ys _ hky
    simpa using List.dedup_cons_of_not_mem hky
  | cons x xs' ih =>
    intro ys hxs hky
    have hx : x = k := hxs x (List.mem_cons_self x xs')
    subst hx
    have hmem : (x :: ((x :: xs') ++ ys)).dedup = ((x :: xs') ++ ys).dedup := by
      apply List.dedup_cons_of_mem
      simp
    rw [List.cons_append, hmem]
    exact ih ys (fun y hy => hxs y (List.mem_cons_of_mem x hy)) hky

/-- For a key-sorted stream, the run keys are exactly the distinct key
projections, in order. -/
theorem groupRuns_keys_eq_dedup {α κ : Type} [DecidableEq κ] {f : α → κ}
    {le : κ → κ → Bool}
    (htrans : ∀ a b c, le a b = true → le b c = true → le a c = true)
    (hanti : ∀ a b, le a b = true → le b a = true → a = b)
    {l : List α} (hs : l.Pairwise (fun x y => le (f x) (f y) = true)) :
    (groupRuns f l).map Prod.fst = (l.map f).dedup := by
  induction l using groupRuns.induct f with
  | case1 => simp [groupRuns_nil]
  | case2 a as ih =>
    rcases List.pairwise_cons.mp hs with ⟨ha, has⟩
    have hrest : (as.dropWhile (fun b => decide (f b = f a))).Pairwise
        (fun x y => le (f x) (f y) = true) :=
      List.Pairwise.sublist (List.dropWhile_sublist _) has
    rw [groupRuns_cons, List.map_cons, ih hrest]
    have hsplit : a :: as = (a :: as.takeWhile (fun b => decide (f b = f a))) ++
        as.dropWhile (fun b => decide (f b = f a)) := by
      simp [List.takeWhile_append_dropWhile]
    conv_rhs => rw [hsplit]
    rw [List.map_append, List.map_cons]
    refine (dedup_const_block (f a) _ _ ?_ ?_).symm
    · intro x hx
      rcases List.mem_map.mp hx with ⟨y, hy, hyx⟩
      rw [← hyx]
      simpa using List.mem_takeWhile_imp hy
    · intro hmem
      rcases List.mem_map.mp hmem with ⟨y, hy, hyx⟩
      exact (mem_dropWhile_key_ne (f := f) htrans hanti as (f a) ha has y hy).1 hyx

/-- The sort-merge walk's output is the concatenation of the joiner's
results on exactly the recorded invocation arguments. -/
theorem joinGroups_eq_flatMap_invocations
    (j : List String → List TRow → List TRow → List TRow) (keys : List String) :
    ∀ (gs hs : List (KeyT × List TRow)),
      joinGroups j keys gs hs =
        (joinInvocations gs hs).flatMap (fun pr => j keys pr.1 pr.2) := by
  intro gs hs
  induction gs, hs using joinInvocations.induct with
  | case1 => simp [joinGroups, joinInvocations]
  | case2 ka ga as ih => simp [joinGroups, joinInvocations, ih]
  | case3 kb gb bs ih => simp [joinGroups, joinInvocations, ih]
  | case4 ga as kb gb bs ih =>
    simp [joinGroups, joinInvocations, ih]
  | case5 ka ga as kb gb bs hne hle ih =>
    simp [joinGroups, joinInvocations, hne, hle, ih]
  | case6 ka ga as kb gb bs hne hle ih =>
    simp [joinGroups, joinInvocations, hne, hle, ih]

/-- If all groups on both sides are non-empty, every recorded invocation has
a non-empty side. -/
theorem joinInvocations_nonempty :
    ∀ (gs hs : List (KeyT × List TRow)),
      (∀ p ∈ gs, p.2 ≠ []) → (∀ p ∈ hs, p.2 ≠ []) →
      ∀ pr ∈ joinInvocations gs hs, pr.1 ≠ [] ∨ pr.2 ≠ [] := by
  intro gs hs
  induction gs, hs using joinInvocations.induct with
  | case1 =>
    intro _ _ pr hpr
    simp [joinInvocations] at hpr
  | case2 ka ga as ih =>
    intro hgs _ pr hpr
    simp only [joinInvocations, List.mem_cons] at hpr
    rcases hpr with hpr | hpr
    · subst hpr
      exact Or.inl (hgs (ka, ga) (List.mem_cons_self _ _))
    · exact ih (fun p hp => hgs p (List.mem_cons_of_mem _ hp)) (by simp) pr hpr
  | case3 kb gb bs ih =>
    intro _ hhs pr hpr
    simp only [joinInvocations, List.mem_cons] at hpr
    rcases hpr with hpr | hpr
    · subst hpr
      exact Or.inr (hhs (kb, gb) (List.mem_cons_self _ _))
    · exact ih (by simp) (fun p hp => hhs p (List.mem_cons_of_mem _ hp)) pr hpr
  | case4 ga as kb gb bs ih =>
    intro hgs hhs pr hpr
    simp only [joinInvocations, if_true] at hpr
    rcases List.mem_cons.mp hpr with hpr | hpr
    · subst hpr
      exact Or.inl (hgs (kb, ga) (List.mem_cons_self _ _))
    · exact ih (fun p hp => hgs p (List.mem_cons_of_mem _ hp))
        (fun p hp => hhs p (List.mem_cons_of_mem _ hp)) pr hpr
  | case5 ka ga as kb gb bs hne hle ih =>
    intro hgs hhs pr hpr
    simp only [joinInvocations, if_neg hne, if_pos hle, List.mem_cons] at hpr
    rcases hpr with hpr | hpr
    · subst hpr
      exact Or.inl (hgs (ka, ga) (List.mem_cons_self _ _))
    · exact ih (fun p hp => hgs p (List.mem_cons_of_mem _ hp)) hhs pr hpr
  | case6 ka ga as kb gb bs hne hle ih =>
    intro hgs hhs pr hpr
    simp only [joinInvocations, if_neg hne, if_neg hle, List.mem_cons] at hpr
    rcases hpr with hpr | hpr
    · subst hpr
      exact Or.inr (hhs (kb, gb) (List.mem_cons_self _ _))
    · exact ih hgs (fun p hp => hhs p (List.mem_cons_of_mem _ hp)) pr hpr

/-- C7: whenever the Join operation invokes its joiner, at least one of the
two groups passed to it is non-empty — the output of `Join.__call__` is the
concatenation of the joiner's results over the recorded invocation
arguments, and every recorded invocation passes a non-empty group on at
least one side. -/
theorem C7_join_invokes_nonempty_groups
    (j : List String → List TRow → List TRow → List TRow) (keys : List String)
    (rowsA rowsB : List TRow) :
    joinCall j keys rowsA rowsB =
      (joinInvocations (groupRuns (grouper keys) rowsA)
        (groupRuns (grouper keys) rowsB)).flatMap (fun pr => j keys pr.1 pr.2) ∧
    ∀ pr ∈ joinInvocations (groupRuns (grouper keys) rowsA)
        (groupRuns (grouper keys) rowsB), pr.1 ≠ [] ∨ pr.2 ≠ [] := by
  constructor
  · exact joinGroups_eq_flatMap_invocations j keys _ _
  · exact joinInvocations_nonempty _ _
      (fun p hp => groupRuns_group_ne_nil hp)
      (fun p hp => groupRuns_group_ne_nil hp)

/-- Witness for C7 at a concrete input. -/
theorem C7_join_invokes_nonempty_groups_witness :
    (([[("k", Value.vInt 1)]], ([] : List TRow)) : List TRow × List TRow).1 ≠ [] ∨
    (([[("k", Value.vInt 1)]], ([] : List TRow)) : List TRow × List TRow).2 ≠ [] := by
  have h := C7_join_invokes_nonempty_groups (innerJoiner "_1" "_2") ["k"]
    [[("k", Value.vInt 1)]] []
  exact h.2 ([[("k", Value.vInt 1)]], []) (by simp [groupRuns, joinInvocations, grouper])

/-- With fuel exceeding the total number of groups, the fuelled loop
finishes and computes the sort-merge walk: every iteration consumes at least
one group from one of the two sides. -/
theorem joinLoopFuel_eq_of_lt
    (j : List String → List TRow → List TRow → List TRow) (keys : List String) :
    ∀ (n : Nat) (gs hs : List (KeyT × List TRow)), gs.length + hs.length < n →
      joinLoopFuel j keys n gs hs = some (joinGroups j keys gs hs) := by
  intro n
  induction n with
  | zero => intro gs hs h; omega
  | succ n ih =>
    intro gs hs h
    match gs, hs with
    | [], [] => simp [joinLoopFuel, joinGroups]
    | (ka, ga) :: as, [] =>
      have : as.length + ([] : List (KeyT × List TRow)).length < n := by
        simp at h ⊢; omega
      simp [joinLoopFuel, joinGroups, ih as [] this]
    | [], (kb, gb) :: bs =>
      have : ([] : List (KeyT × List TRow)).length + bs.length < n := by
        simp at h ⊢; omega
      simp [joinLoopFuel, joinGroups, ih [] bs this]
    | (ka, ga) :: as, (kb, gb) :: bs =>
      by_cases heq : ka = kb
      · have : as.length + bs.length < n := by simp at h ⊢; omega
        simp [joinLoopFuel, joinGroups, heq, ih as bs this]
      · by_cases hle : keyLeB ka kb = true
        · have : as.length + ((kb, gb) :: bs).length < n := by simp at h ⊢; omega
          simp [joinLoopFuel, joinGroups, heq, hle, ih as ((kb, gb) :: bs) this]
        · have : ((ka, ga) :: as).length + bs.length < n := by simp at h ⊢; omega
          simp [joinLoopFuel, joinGroups, heq, hle, ih ((ka, ga) :: as) bs this]

/-- C10: the sort-merge loop of `Join.__call__` terminates on every pair of
finite inputs — a fuel budget of one more than the total number of groups
suffices for the `while True` loop to break, and the finite output is that
of the walk. -/
theorem C10_join_loop_terminates
    (j : List String → List TRow → List TRow → List TRow) (keys : List String)
    (rowsA rowsB : List TRow) :
    joinLoopFuel j keys
      ((groupRuns (grouper keys) rowsA).length +
        (groupRuns (grouper keys) rowsB).length + 1)
      (groupRuns (grouper keys) rowsA) (groupRuns (grouper keys) rowsB) =
      some (joinCall j keys rowsA rowsB) :=
  joinLoopFuel_eq_of_lt j keys _ _ _ (by omega)

/-- C8: reducing with an empty key tuple treats the entire (non-empty) input
as a single group — `itertools.groupby` with the constant empty projection
yields exactly one group holding all input rows in order, so the reducer is
invoked exactly once, receiving all rows. -/
theorem C8_reduce_empty_keys_single_group
    (red : List String → List TRow → List TRow) (rows : List TRow)
    (h : rows ≠ []) :
    groupRuns (grouper []) rows = [(([] : KeyT), rows)] ∧
    reduceCall red [] rows = red [] rows := by
  match rows, h with
  | r :: rest, _ =>
    have htake : rest.takeWhile (fun b => decide (grouper [] b = grouper [] r)) = rest :=
      List.takeWhile_eq_self_iff.mpr (fun x _ => by simp [grouper])
    have hdrop : rest.dropWhile (fun b => decide (grouper [] b = grouper [] r)) = [] :=
      List.dropWhile_eq_nil_iff.mpr (fun x _ => by simp [grouper])
    refine ⟨?_, ?_⟩
    · rw [groupRuns_cons, htake, hdrop, groupRuns_nil]
      simp [grouper]
    · rw [reduceCall, groupRuns_cons, htake, hdrop, groupRuns_nil]
      simp

/-- Witness for C8 at a concrete input. -/
theorem C8_reduce_empty_keys_single_group_witness :
    groupRuns (grouper []) [[("a", Value.vInt 1)], [("a", Value.vInt 2)]] =
      [(([] : KeyT), [[("a", Value.vInt 1)], [("a", Value.vInt 2)]])] ∧
    reduceCall (fun _ g => g) [] [[("a", Value.vInt 1)], [("a", Value.vInt 2)]] =
      (fun (_ : List String) (g : List TRow) => g) []
        [[("a", Value.vInt 1)], [("a", Value.vInt 2)]] :=
  C8_reduce_empty_keys_single_group (fun _ g => g)
    [[("a", Value.vInt 1)], [("a", Value.vInt 2)]] (by decide)

/-- C9: running an iterator-source graph whose name is missing from the
named inputs fails at run start — `kwargs[self.source]` raises before the
stage loop — so the failure is the same for every store (stage list) and
every stage semantics, and no output is produced. -/
theorem C9_run_missing_source_fails_first
    (applyStage : Stage → List TRow → List TRow) (s : Store) (g : GraphObj)
    (inputs : String → Option (List TRow)) (h : inputs g.source = none) :
    runGraph applyStage s g inputs = Except.error g.source ∧
    ∀ (applyStage2 : Stage → List TRow → List TRow) (s2 : Store),
      runGraph applyStage2 s2 g inputs = runGraph applyStage s g inputs := by
  refine ⟨?_, ?_⟩
  · simp [runGraph, h]
  · intro applyStage2 s2
    simp [runGraph, h]

/-- Witness for C9 at a concrete input. -/
theorem C9_run_missing_source_fails_first_witness :
    runGraph (fun _ r => r) (Store.mk [[]]) (GraphObj.mk "docs" 0)
      (fun _ => none) = Except.error "docs" :=
  (C9_run_missing_source_fails_first (fun _ r => r) (Store.mk [[]])
    (GraphObj.mk "docs" 0) (fun _ => none) rfl).1

/-- Membership in `executedMappers` is exactly a `Map` stage membership. -/
theorem mem_executedMappers {s : Store} {g : GraphObj} {m : MapperD} :
    m ∈ executedMappers s g ↔ Stage.mapStage m ∈ stagesOf s g := by
  constructor
  · intro hm
    rcases List.mem_filterMap.mp hm with ⟨st, hst, heq⟩
    cases st <;> simp_all [executedMappers]
  · intro hst
    exact List.mem_filterMap.mpr ⟨Stage.mapStage m, hst, rfl⟩

/-- The stage list a valid graph refers to is untouched by `graphMap`. -/
theorem stagesOf_graphMap_orig (s : Store) (g : GraphObj) (m : MapperD)
    (href : g.opsRef < s.cells.length) :
    stagesOf (graphMap s g m).1 g = stagesOf s g := by
  simp only [graphMap, copyGraph, appendStage, stagesOf]
  rw [List.getD_eq_getElem?_getD, List.getD_eq_getElem?_getD,
    List.getElem?_set_ne (by omega),
    List.getElem?_append_left href]

/-- The new graph's stage list is the old one extended by the `Map` stage. -/
theorem stagesOf_graphMap_new (s : Store) (g : GraphObj) (m : MapperD) :
    stagesOf (graphMap s g m).1 (graphMap s g m).2 =
      stagesOf s g ++ [Stage.mapStage m] := by
  simp only [graphMap, copyGraph, appendStage, stagesOf]
  have hget : (s.cells ++ [s.cells.getD g.opsRef []]).getD s.cells.length []
      = s.cells.getD g.opsRef [] := by
    rw [List.getD_eq_getElem?_getD, List.getElem?_concat_length]
    rfl
  rw [hget, List.getD_eq_getElem?_getD, List.getElem?_set_self (by simp)]
  rfl

/-- C3: `g2 = g1.map(m)` returns a new graph and never mutates the
original — `Graph.__copy__` copies the operations list, so `g1`'s stage list
is unchanged, `g2`'s is `g1`'s plus the `Map` stage, running `g1` is
unaffected for every stage semantics and input, and `g1`'s run applies `m`
to no record (the mapper is absent from its stages). -/
theorem C3_graph_map_immutable (s : Store) (g : GraphObj) (m : MapperD)
    (href : g.opsRef < s.cells.length) :
    stagesOf (graphMap s g m).1 g = stagesOf s g ∧
    stagesOf (graphMap s g m).1 (graphMap s g m).2 =
      stagesOf s g ++ [Stage.mapStage m] ∧
    (Stage.mapStage m ∉ stagesOf s g →
      m ∉ executedMappers (graphMap s g m).1 g) ∧
    ∀ (applyStage : Stage → List TRow → List TRow)
      (inputs : String → Option (List TRow)),
      runGraph applyStage (graphMap s g m).1 g inputs =
        runGraph applyStage s g inputs := by
  have horig := stagesOf_graphMap_orig s g m href
  refine ⟨horig, stagesOf_graphMap_new s g m, ?_, ?_⟩
  · intro hnot hmem
    exact hnot (horig ▸ mem_executedMappers.mp hmem)
  · intro applyStage inputs
    simp only [runGraph, horig]

/-- Witness for C3 at a concrete input. -/
theorem C3_graph_map_immutable_witness :
    0 < (Store.mk [[]]).cells.length ∧
    stagesOf (graphMap (Store.mk [[]]) (GraphObj.mk "docs" 0)
        MapperD.dummyMapper).1 (GraphObj.mk "docs" 0) =
      stagesOf (Store.mk [[]]) (GraphObj.mk "docs" 0) :=
  ⟨by decide,
    (C3_graph_map_immutable (Store.mk [[]]) (GraphObj.mk "docs" 0)
      MapperD.dummyMapper (by decide)).1⟩

/-- C5 (the `external_sort` module is modelled from the spec): the sort
stage emits a permutation of its input that is non-decreasing in the
lexicographic key order, and rows with equal key projections keep their
relative input order. -/
theorem C5_sort_stable_permutation (keys : List String) (rows : List TRow) :
    (externalSort keys rows).Perm rows ∧
    (externalSort keys rows).Pairwise
      (fun r t => keyLeB (grouper keys r) (grouper keys t) = true) ∧
    ∀ k : KeyT,
      (externalSort keys rows).filter (fun r => decide (grouper keys r = k)) =
        rows.filter (fun r => decide (grouper keys r = k)) := by
  have htrans : ∀ (a b c : TRow),
      keyLeB (grouper keys a) (grouper keys b) = true →
      keyLeB (grouper keys b) (grouper keys c) = true →
      keyLeB (grouper keys a) (grouper keys c) = true :=
    fun a b c h1 h2 => keyLeB_trans h1 h2
  have htotal : ∀ (a b : TRow),
      (keyLeB (grouper keys a) (grouper keys b) ||
        keyLeB (grouper keys b) (grouper keys a)) = true := by
    intro a b
    rcases keyLeB_total (grouper keys a) (grouper keys b) with h | h <;> simp [h]
  refine ⟨List.mergeSort_perm rows _, List.sorted_mergeSort htrans htotal rows, ?_⟩
  intro k
  set p : TRow → Bool := fun r => decide (grouper keys r = k) with hp
  have hallk : ∀ x ∈ rows.filter p, grouper keys x = k := by
    intro x hx
    have := (List.mem_filter.mp hx).2
    simpa [hp] using this
  have hpw : (rows.filter p).Pairwise
      (fun r t => keyLeB (grouper keys r) (grouper keys t) = true) := by
    apply List.pairwise_of_forall_mem_list
    intro a ha b hb
    rw [hallk a ha, hallk b hb]
    exact keyLeB_refl k
  have hsub : (rows.filter p).Sublist (externalSort keys rows) :=
    List.mergeSort_stable htrans htotal hpw (List.filter_sublist rows)
  have hfsub : (rows.filter p).Sublist ((externalSort keys rows).filter p) := by
    have := List.Sublist.filter p hsub
    rwa [List.filter_eq_self.mpr (fun a ha => (List.mem_filter.mp ha).2)] at this
  have hlen : ((externalSort keys rows).filter p).length = (rows.filter p).length :=
    ((List.mergeSort_perm rows _).filter p).length_eq
  exact (hfsub.eq_of_length hlen.symm).symm

/-- `row[k] = v` stores `v` at `k`. -/
theorem lookup_setField_self (r : TRow) (k : String) (v : Value) :
    List.lookup k (setField r k v) = some v := by
  induction r with
  | nil => simp [setField, List.lookup]
  | cons kv rest ih =>
    by_cases h : kv.1 = k
    · rw [show kv = (kv.1, kv.2) from rfl, setField, if_pos h, List.lookup]
      simp [h]
    · rw [show kv = (kv.1, kv.2) from rfl, setField, if_neg h, List.lookup]
      have : (k == kv.1) = false := by
        simp
        exact fun hh => h hh.symm
      simp [this, ih]

/-- `row[k] = v` leaves every other field unchanged. -/
theorem lookup_setField_ne (r : TRow) {k2 k : String} (v : Value) (h : k2 ≠ k) :
    List.lookup k2 (setField r k v) = List.lookup k2 r := by
  induction r with
  | nil =>
    simp only [setField, List.lookup]
    have : (k2 == k) = false := by simpa using h
    simp [this]
  | cons kv rest ih =>
    by_cases hk : kv.1 = k
    · rw [show kv = (kv.1, kv.2) from rfl, setField, if_pos hk]
      subst hk
      have : (k2 == kv.1) = false := by simpa using h
      simp [List.lookup, this]
    · rw [show kv = (kv.1, kv.2) from rfl, setField, if_neg hk]
      by_cases h2 : k2 = kv.1
      · subst h2
        simp [List.lookup]
      · have : (k2 == kv.1) = false := by simpa using h2
        simp [List.lookup, this, ih]

/-- C4 counterexample: `FilterPunctuation` does not leave the input record
unchanged — the call assigns the stripped string to the column of the
caller's row object before yielding it, so after the call on
`{text: "a,b"}` the input record holds `{text: "ab"}`. -/
theorem C4_counterexample :
    (filterPunctuationCall "text" [("text", Value.vStr "a,b")]).map Prod.fst ≠
      some [("text", Value.vStr "a,b")] ∧
    filterPunctuationCall "text" [("text", Value.vStr "a,b")] =
      some ([("text", Value.vStr "ab")], [[("text", Value.vStr "ab")]]) := by
  refine ⟨?_, by decide⟩
  decide

/-- C4 (amended): `FilterPunctuation` and `LowerCase` mutate the input
record in place — each call rewrites the named column of the caller's row
object (stripping punctuation, resp. lowercasing) and yields that same
record once; every other field of the record is left unchanged. -/
theorem C4_mappers_mutate_column_only (column : String) (row : TRow) (s : String)
    (h : List.lookup column row = some (Value.vStr s)) :
    (∃ r, filterPunctuationCall column row = some (r, [r]) ∧
      List.lookup column r = some (Value.vStr (stripPunct s)) ∧
      ∀ k, k ≠ column → List.lookup k r = List.lookup k row) ∧
    (∃ r, lowerCaseCall column row = some (r, [r]) ∧
      List.lookup column r = some (Value.vStr s.toLower) ∧
      ∀ k, k ≠ column → List.lookup k r = List.lookup k row) := by
  refine ⟨⟨setField row column (Value.vStr (stripPunct s)), ?_, ?_, ?_⟩,
    ⟨setField row column (Value.vStr s.toLower), ?_, ?_, ?_⟩⟩
  · simp [filterPunctuationCall, h]
  · exact lookup_setField_self row column _
  · intro k hk
    exact lookup_setField_ne row _ hk
  · simp [lowerCaseCall, h]
  · exact lookup_setField_self row column _
  · intro k hk
    exact lookup_setField_ne row _ hk

/-- Witness for the amended C4 at a concrete input. -/
theorem C4_mappers_mutate_column_only_witness :
    (∃ r, filterPunctuationCall "text"
        [("text", Value.vStr "A,b"), ("id", Value.vInt 7)] = some (r, [r]) ∧
      List.lookup "text" r = some (Value.vStr (stripPunct "A,b")) ∧
      ∀ k, k ≠ "text" →
        List.lookup k r =
          List.lookup k [("text", Value.vStr "A,b"), ("id", Value.vInt 7)]) ∧
    (∃ r, lowerCaseCall "text"
        [("text", Value.vStr "A,b"), ("id", Value.vInt 7)] = some (r, [r]) ∧
      List.lookup "text" r = some (Value.vStr (String.toLower "A,b")) ∧
      ∀ k, k ≠ "text" →
        List.lookup k r =
          List.lookup k [("text", Value.vStr "A,b"), ("id", Value.vInt 7)]) :=
  C4_mappers_mutate_column_only "text"
    [("text", Value.vStr "A,b"), ("id", Value.vInt 7)] "A,b" (by decide)

/-- Concatenation congruence over members. -/
theorem flatMap_congr_mem {α β : Type} {l : List α} {f g : α → List β}
    (h : ∀ x ∈ l, f x = g x) : l.flatMap f = l.flatMap g := by
  induction l with
  | nil => rfl
  | cons a as ih =>
    simp only [List.flatMap_cons]
    rw [h a (List.mem_cons_self a as),
      ih (fun x hx => h x (List.mem_cons_of_mem a hx))]

/-- C6: on a key-sorted input, `Reduce` invokes the reducer exactly once per
distinct key projection (the group count equals the distinct-projection
count), each group is exactly the key-equal rows in input order, and the
output is the concatenation of the reducer's results in ascending group
order. -/
theorem C6_reduce_grouping (red : List String → List TRow → List TRow)
    (keys : List String) (rows : List TRow)
    (hs : rows.Pairwise
      (fun r t => keyLeB (grouper keys r) (grouper keys t) = true)) :
    (groupRuns (grouper keys) rows).length =
      ((rows.map (grouper keys)).dedup).length ∧
    (∀ p ∈ groupRuns (grouper keys) rows,
      p.2 = rows.filter (fun r => decide (grouper keys r = p.1))) ∧
    reduceCall red keys rows =
      ((rows.map (grouper keys)).dedup).flatMap
        (fun k => red keys (rows.filter (fun r => decide (grouper keys r = k)))) := by
  have htrans : ∀ (a b c : KeyT),
      keyLeB a b = true → keyLeB b c = true → keyLeB a c = true :=
    fun _ _ _ h1 h2 => keyLeB_trans h1 h2
  have hanti : ∀ (a b : KeyT), keyLeB a b = true → keyLeB b a = true → a = b :=
    fun _ _ h1 h2 => keyLeB_antisymm h1 h2
  have hdedup : (groupRuns (grouper keys) rows).map Prod.fst =
      (rows.map (grouper keys)).dedup :=
    groupRuns_keys_eq_dedup htrans hanti hs
  have hfilter := groupRuns_group_eq_filter htrans hanti hs
  refine ⟨?_, hfilter, ?_⟩
  · calc (groupRuns (grouper keys) rows).length
        = ((groupRuns (grouper keys) rows).map Prod.fst).length :=
          (List.length_map _ _).symm
      _ = ((rows.map (grouper keys)).dedup).length := by rw [hdedup]
  · rw [reduceCall, ← hdedup, List.flatMap_map]
    exact flatMap_congr_mem (fun p hp => by rw [← hfilter p hp])

/-- Witness for C6 at a concrete input. -/
theorem C6_reduce_grouping_witness :
    (groupRuns (grouper ["k"])
        [[("k", Value.vInt 1), ("v", Value.vInt 5)],
         [("k", Value.vInt 1), ("v", Value.vInt 6)],
         [("k", Value.vInt 2)]]).length =
      (([[("k", Value.vInt 1), ("v", Value.vInt 5)],
         [("k", Value.vInt 1), ("v", Value.vInt 6)],
         [("k", Value.vInt 2)]].map (grouper ["k"])).dedup).length ∧
    reduceCall (fun _ g => [[("n", Value.vInt g.length)]]) ["k"]
        [[("k", Value.vInt 1), ("v", Value.vInt 5)],
         [("k", Value.vInt 1), ("v", Value.vInt 6)],
         [("k", Value.vInt 2)]] =
      (([[("k", Value.vInt 1), ("v", Value.vInt 5)],
         [("k", Value.vInt 1), ("v", Value.vInt 6)],
         [("k", Value.vInt 2)]].map (grouper ["k"])).dedup).flatMap
        (fun k => (fun (_ : List String) (g : List TRow) =>
            [[("n", Value.vInt g.length)]]) ["k"]
          ([[("k", Value.vInt 1), ("v", Value.vInt 5)],
            [("k", Value.vInt 1), ("v", Value.vInt 6)],
            [("k", Value.vInt 2)]].filter
              (fun r => decide (grouper ["k"] r = k)))) := by
  have h := C6_reduce_grouping (fun _ g => [[("n", Value.vInt g.length)]]) ["k"]
    [[("k", Value.vInt 1), ("v", Value.vInt 5)],
     [("k", Value.vInt 1), ("v", Value.vInt 6)],
     [("k", Value.vInt 2)]] (by decide)
  exact ⟨h.1, h.2.2⟩

/-- `InnerJoiner.__call__` computes `_inner_join` on every argument pair:
the truthiness guard only skips the both-empty case, where the cross product
is empty anyway. -/
theorem innerJoiner_eq_innerJoinRows (sa sb : String) (keys : List String)
    (ga gb : List TRow) :
    innerJoiner sa sb keys ga gb = innerJoinRows sa sb keys ga gb := by
  match ga, gb with
  | [], [] => rfl
  | a :: ga, [] => simp [innerJoiner, innerJoinRows]
  | [], b :: gb => simp [innerJoiner]
  | a :: ga, b :: gb => simp [innerJoiner]

/-- The inner joiner yields nothing when the right group is empty. -/
theorem innerJoiner_right_empty (sa sb : String) (keys : List String)
    (ga : List TRow) : innerJoiner sa sb keys ga [] = [] := by
  rw [innerJoiner_eq_innerJoinRows]
  match ga with
  | [] => rfl
  | a :: ga => rfl

/-- The inner joiner yields nothing when the left group is empty. -/
theorem innerJoiner_left_empty (sa sb : String) (keys : List String)
    (gb : List TRow) : innerJoiner sa sb keys [] gb = [] := by
  rw [innerJoiner_eq_innerJoinRows]
  rfl

/-- The sort-merge walk with a joiner that drops one-sided groups computes,
for each left group in order, the joiner on that group and the key-matching
right group (when present): the matched-pairs characterisation of the inner
sort-merge join, given strictly increasing group keys on both sides. -/
theorem joinGroups_eq_matched_pairs
    (j : List String → List TRow → List TRow → List TRow) (keys : List String)
    (hj1 : ∀ ga, j keys ga [] = []) (hj2 : ∀ gb, j keys [] gb = []) :
    ∀ (gs hs : List (KeyT × List TRow)),
      (gs.map Prod.fst).Pairwise (fun a b => keyLeB a b = true ∧ a ≠ b) →
      (hs.map Prod.fst).Pairwise (fun a b => keyLeB a b = true ∧ a ≠ b) →
      joinGroups j keys gs hs =
        gs.flatMap (fun p =>
          match hs.find? (fun q => decide (q.1 = p.1)) with
          | some q => j keys p.2 q.2
          | none => []) := by
  intro gs hs
  induction gs, hs using joinInvocations.induct with
  | case1 =>
    intro _ _
    simp [joinGroups]
  | case2 ka ga as ih =>
    intro hgs _
    rw [List.map_cons] at hgs
    rcases List.pairwise_cons.mp hgs with ⟨_, htl⟩
    simp only [joinGroups, hj1, List.nil_append]
    rw [ih htl List.Pairwise.nil]
    simp [List.flatMap_cons, List.find?]
  | case3 kb gb bs ih =>
    intro _ hhs
    rw [List.map_cons] at hhs
    rcases List.pairwise_cons.mp hhs with ⟨_, htl⟩
    simp only [joinGroups, hj2, List.nil_append]
    rw [ih List.Pairwise.nil htl]
    simp
  | case4 ga as kb gb bs ih =>
    intro hgs hhs
    rw [List.map_cons] at hgs hhs
    rcases List.pairwise_cons.mp hgs with ⟨hheadA, htlA⟩
    rcases List.pairwise_cons.mp hhs with ⟨hheadB, htlB⟩
    simp only [joinGroups, if_true, List.flatMap_cons]
    have hfind : List.find? (fun q => decide (q.1 = kb)) ((kb, gb) :: bs) =
        some (kb, gb) := by
      rw [List.find?_cons_of_pos]
      simp
    rw [hfind]
    refine congrArg ((j keys ga gb) ++ ·) ?_
    rw [ih htlA htlB]
    refine flatMap_congr_mem ?_
    intro p hp
    have hne : kb ≠ p.1 := by
      have := hheadA p.1 (List.mem_map.mpr ⟨p, hp, rfl⟩)
      exact this.2
    rw [List.find?_cons_of_neg]
    simp [hne]
  | case5 ka ga as kb gb bs hne hle ih =>
    intro hgs hhs
    rw [List.map_cons] at hgs
    rcases List.pairwise_cons.mp hgs with ⟨hheadA, htlA⟩
    have hhs2 := hhs
    rw [List.map_cons] at hhs2
    rcases List.pairwise_cons.mp hhs2 with ⟨hheadB, htlB⟩
    simp only [joinGroups, if_neg hne, if_pos hle, hj1, List.nil_append,
      List.flatMap_cons]
    have hfind : List.find? (fun q => decide (q.1 = ka)) ((kb, gb) :: bs) =
        none := by
      rw [List.find?_eq_none]
      intro q hq
      rcases List.mem_cons.mp hq with hq | hq
      · subst hq
        simp only [decide_eq_true_eq]
        exact fun h => hne (h.symm)
      · have hkb := hheadB q.1 (List.mem_map.mpr ⟨q, hq, rfl⟩)
        simp only [decide_eq_true_eq]
        intro h
        rw [h] at hkb
        exact hne (keyLeB_antisymm hle hkb.1)
    rw [hfind, ih htlA hhs]
    simp
  | case6 ka ga as kb gb bs hne hle ih =>
    intro hgs hhs
    rw [List.map_cons] at hhs
    rcases List.pairwise_cons.mp hhs with ⟨hheadB, htlB⟩
    have hlt : keyLeB kb ka = true := keyLeB_of_not_le hle
    simp only [joinGroups, if_neg hne, if_neg hle, hj2, List.nil_append]
    rw [ih hgs htlB]
    refine flatMap_congr_mem ?_
    intro p hp
    have hpne : kb ≠ p.1 := by
      have hgs2 := hgs
      rw [List.map_cons] at hgs2
      rcases List.pairwise_cons.mp hgs2 with ⟨hheadA, _⟩
      rcases List.mem_cons.mp hp with hp | hp
      · rw [hp]
        exact fun h => hne h.symm
      · have hka := hheadA p.1 (List.mem_map.mpr ⟨p, hp, rfl⟩)
        intro h
        rw [← h] at hka
        exact hne (keyLeB_antisymm hka.1 hlt)
    rw [List.find?_cons_of_neg]
    simp [hpne]

/-- C1: for key-sorted inputs, `Join` with the `InnerJoiner` outputs exactly
the concatenation, in ascending key order (the order of the left stream's
groups), of the cross products of the key-matching group pairs; a key group
present on only one side contributes no rows. -/
theorem C1_inner_join_sorted_merge (sa sb : String) (keys : List String)
    (rowsA rowsB : List TRow)
    (hA : rowsA.Pairwise
      (fun r t => keyLeB (grouper keys r) (grouper keys t) = true))
    (hB : rowsB.Pairwise
      (fun r t => keyLeB (grouper keys r) (grouper keys t) = true)) :
    joinCall (innerJoiner sa sb) keys rowsA rowsB =
      innerJoinSpecOutput sa sb keys rowsA rowsB := by
  have htrans : ∀ (a b c : KeyT),
      keyLeB a b = true → keyLeB b c = true → keyLeB a c = true :=
    fun _ _ _ h1 h2 => keyLeB_trans h1 h2
  have hanti : ∀ (a b : KeyT), keyLeB a b = true → keyLeB b a = true → a = b :=
    fun _ _ h1 h2 => keyLeB_antisymm h1 h2
  have hstrictA := groupRuns_keys_strict (f := grouper keys) htrans hanti hA
  have hstrictB := groupRuns_keys_strict (f := grouper keys) htrans hanti hB
  rw [joinCall,
    joinGroups_eq_matched_pairs (innerJoiner sa sb) keys
      (innerJoiner_right_empty sa sb keys) (innerJoiner_left_empty sa sb keys)
      _ _ hstrictA hstrictB,
    innerJoinSpecOutput]
  refine flatMap_congr_mem ?_
  intro p _
  cases hfind : List.find?
      (fun q => decide (q.1 = p.1)) (groupRuns (grouper keys) rowsB) with
  | none => rfl
  | some q => exact innerJoiner_eq_innerJoinRows sa sb keys p.2 q.2

/-- Witness for C1 at a concrete input. -/
theorem C1_inner_join_sorted_merge_witness :
    joinCall (innerJoiner "_1" "_2") ["k"]
        [[("k", Value.vInt 1), ("x", Value.vInt 10)],
         [("k", Value.vInt 2), ("x", Value.vInt 20)]]
        [[("k", Value.vInt 2), ("y", Value.vInt 30)], [("k", Value.vInt 3)]] =
      innerJoinSpecOutput "_1" "_2" ["k"]
        [[("k", Value.vInt 1), ("x", Value.vInt 10)],
         [("k", Value.vInt 2), ("x", Value.vInt 20)]]
        [[("k", Value.vInt 2), ("y", Value.vInt 30)], [("k", Value.vInt 3)]] :=
  C1_inner_join_sorted_merge "_1" "_2" ["k"] _ _ (by decide) (by decide)

/-- Lookup across an append searches the left part first. -/
theorem lookup_append (k : String) (l1 l2 : TRow) :
    List.lookup k (l1 ++ l2) =
      match List.lookup k l1 with
      | some v => some v
      | none => List.lookup k l2 := by
  induction l1 with
  | nil => simp [List.lookup]
  | cons kv rest ih =>
    by_cases h : k = kv.1
    · subst h
      simp [List.lookup]
    · have hb : (k == kv.1) = false := by simpa using h
      simp [List.lookup, hb, ih]

/-- Lookup through a name-preserving value transformation. -/
theorem lookup_map_value (k : String) (d : TRow) (h : String → Value → Value) :
    List.lookup k (d.map (fun kv => (kv.1, h kv.1 kv.2))) =
      (List.lookup k d).map (h k) := by
  induction d with
  | nil => simp [List.lookup]
  | cons kv rest ih =>
    by_cases hk : k = kv.1
    · subst hk
      simp [List.lookup]
    · have hb : (k == kv.1) = false := by simpa using hk
      simp [List.lookup, hb, ih]

/-- Filtering with a predicate that keeps every entry named `k` does not
change the lookup at `k`. -/
theorem lookup_filter_of_name (k : String) (d : TRow) (p : String × Value → Bool)
    (h : ∀ v, p (k, v) = true) :
    List.lookup k (d.filter p) = List.lookup k d := by
  induction d with
  | nil => simp
  | cons kv rest ih =>
    by_cases hk : k = kv.1
    · subst hk
      rw [show kv = (kv.1, kv.2) from rfl, List.filter_cons, if_pos (h kv.2)]
      simp [List.lookup]
    · have hb : (k == kv.1) = false := by simpa using hk
      rw [List.filter_cons]
      by_cases hp : p kv = true
      · rw [if_pos hp]
        simp [List.lookup, hb, ih]
      · rw [if_neg hp]
        simp [List.lookup, hb, ih]

/-- Lookup in the dict union `d1 | d2`: the value of `d2` where both carry
the name, else whichever side carries it. -/
theorem lookup_dictUnion (k : String) (d1 d2 : TRow) :
    List.lookup k (dictUnion d1 d2) =
      match List.lookup k d1 with
      | some v => some ((List.lookup k d2).getD v)
      | none => List.lookup k d2 := by
  rw [dictUnion, lookup_append,
    lookup_map_value k d1 (fun k1 v => (List.lookup k1 d2).getD v)]
  cases h1 : List.lookup k d1 with
  | some v => simp
  | none =>
    simp only [Option.map_none]
    exact lookup_filter_of_name k d2 _ (fun v => by simp [h1])

/-- The number of `isSome` lookups is a function of the name list. -/
theorem lookup_isSome_eq_contains (k : String) (d : TRow) :
    (List.lookup k d).isSome = (d.map Prod.fst).contains k := by
  induction d with
  | nil => simp [List.lookup]
  | cons kv rest ih =>
    by_cases hk : k = kv.1
    · subst hk
      simp [List.lookup]
    · have hb : (k == kv.1) = false := by simpa using hk
      simp [List.lookup, hb, ih]

/-- The suffix sets of `_inner_join` depend only on the field-name lists of
the two rows. -/
theorem collisionSet_names (keys : List String) (ra rb ra2 rb2 : TRow)
    (h1 : ra.map Prod.fst = ra2.map Prod.fst)
    (h2 : rb.map Prod.fst = rb2.map Prod.fst) :
    collisionSet keys ra rb = collisionSet keys ra2 rb2 := by
  rw [collisionSet, collisionSet, h1]
  refine List.filter_congr ?_
  intro k _
  rw [lookup_isSome_eq_contains k rb, lookup_isSome_eq_contains k rb2, h2]

/-- Key fields are never in a suffix set. -/
theorem key_not_mem_collisionSet {keys : List String} {k : String}
    (hk : k ∈ keys) (ra rb : TRow) : k ∉ collisionSet keys ra rb := by
  intro hmem
  rcases List.mem_filter.mp hmem with ⟨_, hcond⟩
  simp only [Bool.and_eq_true] at hcond
  have hc : keys.contains k = true := List.elem_iff.mpr hk
  rw [hc] at hcond
  simp at hcond

/-- Lookup after renaming: if, over the names of `row`, renaming to `m` is
exactly being named `target`, the renamed row answers `m` as the original
answers `target`. -/
theorem lookup_renameRow_eq (suffix : String) (S : List String) (row : TRow)
    (m target : String)
    (hiff : ∀ g ∈ row.map Prod.fst,
      ((if S.contains g then g ++ suffix else g) = m) ↔ g = target) :
    List.lookup m (renameRow suffix S row) = List.lookup target row := by
  induction row with
  | nil => simp [renameRow, List.lookup]
  | cons kv rest ih =>
    have hg := hiff kv.1 (by simp)
    have hrest : ∀ g ∈ rest.map Prod.fst,
        ((if S.contains g then g ++ suffix else g) = m) ↔ g = target :=
      fun g hgm => hiff g (by simp [hgm])
    rw [renameRow, List.map_cons]
    by_cases hm : (if S.contains kv.1 then kv.1 ++ suffix else kv.1) = m
    · have htg : kv.1 = target := hg.mp hm
      have hb1 : (m == if S.contains kv.1 then kv.1 ++ suffix else kv.1) = true :=
        beq_iff_eq.mpr hm.symm
      have hb2 : (target == kv.1) = true := beq_iff_eq.mpr htg.symm
      rw [show kv = (kv.1, kv.2) from rfl, List.lookup, List.lookup]
      simp only [hb1, hb2]
    · have htg : kv.1 ≠ target := fun h => hm (hg.mpr h)
      have hb1 : (m == if S.contains kv.1 then kv.1 ++ suffix else kv.1) = false :=
        beq_eq_false_iff_ne.mpr (fun h => hm h.symm)
      have hb2 : (target == kv.1) = false :=
        beq_eq_false_iff_ne.mpr (fun h => htg h.symm)
      rw [show kv = (kv.1, kv.2) from rfl, List.lookup, List.lookup]
      simp only [hb1, hb2]
      exact ih hrest

/-- Lookup after renaming misses `m` when no name of `row` renames to `m`. -/
theorem lookup_renameRow_none (suffix : String) (S : List String) (row : TRow)
    (m : String)
    (hne : ∀ g ∈ row.map Prod.fst,
      (if S.contains g then g ++ suffix else g) ≠ m) :
    List.lookup m (renameRow suffix S row) = none := by
  induction row with
  | nil => simp [renameRow, List.lookup]
  | cons kv rest ih =>
    have hg := hne kv.1 (by simp)
    have hb1 : (m == if S.contains kv.1 then kv.1 ++ suffix else kv.1) = false :=
      beq_eq_false_iff_ne.mpr (fun h => hg h.symm)
    rw [renameRow, List.map_cons, show kv = (kv.1, kv.2) from rfl, List.lookup]
    simp only [hb1]
    exact ih (fun g hgm => hne g (by simp [hgm]))

/-- No string ending in `_1` equals one ending in `_2`. -/
theorem append_s1_ne_append_s2 (g f : String) : g ++ "_1" ≠ f ++ "_2" := by
  intro h
  have hd := congrArg String.data h
  rw [String.data_append, String.data_append] at hd
  have h1 := congrArg List.getLast? hd
  rw [List.getLast?_append, List.getLast?_append] at h1
  have e1 : ("_1" : String).data.getLast? = some '1' := rfl
  have e2 : ("_2" : String).data.getLast? = some '2' := rfl
  rw [e1, e2] at h1
  simp [Option.or] at h1

/-- Appending the same suffix is injective. -/
theorem string_append_right_cancel {a b s : String} (h : a ++ s = b ++ s) :
    a = b := by
  have hd := congrArg String.data h
  rw [String.data_append, String.data_append] at hd
  exact String.ext (List.append_cancel_right hd)

/-- C2 counterexample: the suffix name-sets of `_inner_join` are computed
from the first matched pair only, so a later matched pair can share a
non-key field name and still emit it once, unsuffixed.  Here the second
emitted row comes from the pair `({k:1, b:2}, {k:1, b:10})` whose shared
non-key field `b` appears neither as `b_1` nor as `b_2`: the right value
silently overwrites the left one. -/
theorem C2_counterexample :
    innerJoinRows "_1" "_2" ["k"]
        [[("k", Value.vInt 1), ("a", Value.vInt 1)],
         [("k", Value.vInt 1), ("b", Value.vInt 2)]]
        [[("k", Value.vInt 1), ("b", Value.vInt 10)]] =
      [[("k", Value.vInt 1), ("a", Value.vInt 1), ("b", Value.vInt 10)],
       [("k", Value.vInt 1), ("b", Value.vInt 10)]] ∧
    (List.lookup "b" [("k", Value.vInt 1), ("b", Value.vInt 2)]).isSome = true ∧
    (List.lookup "b" [("k", Value.vInt 1), ("b", Value.vInt 10)]).isSome = true ∧
    "b" ∉ ["k"] ∧
    List.lookup "b_1" [("k", Value.vInt 1), ("b", Value.vInt 10)] = none ∧
    List.lookup "b_2" [("k", Value.vInt 1), ("b", Value.vInt 10)] = none := by
  refine ⟨by decide, by decide, by decide, by decide, by decide, by decide⟩

/-- C2 (amended): the suffix name-sets are computed once per joiner
invocation, from the first matched pair.  When every left row shares the
first left row's field-name list and every right row the first right row's
(the homogeneous case, under which the cached sets agree with every pair's
own), each matched pair `(ra, rb)` emits the merge computed with its own
collision sets, and in that merged row every shared non-key field `f`
(whose suffixed names clash with no existing field) appears twice — `f_1`
with the left value and `f_2` with the right value — while a key field is
never suffixed: its value is that of the plain right-over-left union. -/
theorem C2_join_suffix_policy (keys : List String) (rowsA rowsB : List TRow)
    (ra0 rb0 : TRow) (restA restB : List TRow)
    (hA : rowsA = ra0 :: restA) (hB : rowsB = rb0 :: restB)
    (hhomA : ∀ ra ∈ rowsA, ra.map Prod.fst = ra0.map Prod.fst)
    (hhomB : ∀ rb ∈ rowsB, rb.map Prod.fst = rb0.map Prod.fst) :
    innerJoinRows "_1" "_2" keys rowsA rowsB =
      rowsA.flatMap (fun ra => rowsB.map (fun rb => pairMergedRow keys ra rb)) ∧
    ∀ ra ∈ rowsA, ∀ rb ∈ rowsB,
      (∀ f : String, f ∉ keys →
        (List.lookup f ra).isSome = true →
        (List.lookup f rb).isSome = true →
        (f ++ "_1") ∉ ra.map Prod.fst → (f ++ "_1") ∉ rb.map Prod.fst →
        (f ++ "_2") ∉ ra.map Prod.fst → (f ++ "_2") ∉ rb.map Prod.fst →
        List.lookup (f ++ "_1") (pairMergedRow keys ra rb) = List.lookup f ra ∧
        List.lookup (f ++ "_2") (pairMergedRow keys ra rb) = List.lookup f rb) ∧
      (∀ k ∈ keys,
        (∀ g ∈ ra.map Prod.fst ++ rb.map Prod.fst,
          g ++ "_1" ≠ k ∧ g ++ "_2" ≠ k) →
        List.lookup k (pairMergedRow keys ra rb) =
          List.lookup k (dictUnion ra rb)) := by
  constructor
  · subst hA hB
    rw [innerJoinRows]
    refine flatMap_congr_mem ?_
    intro ra hra
    refine List.map_congr_left ?_
    intro rb hrb
    rw [pairMergedRow,
      collisionSet_names keys ra0 rb0 ra rb (hhomA ra hra).symm (hhomB rb hrb).symm,
      collisionSet_names keys rb0 ra0 rb ra (hhomB rb hrb).symm (hhomA ra hra).symm]
  · intro ra hra rb hrb
    constructor
    · intro f hfk hfa hfb hf1a hf1b hf2a hf2b
      have hfa' : f ∈ ra.map Prod.fst := by
        have := lookup_isSome_eq_contains f ra
        rw [hfa] at this
        exact List.elem_iff.mp this.symm
      have hfb' : f ∈ rb.map Prod.fst := by
        have := lookup_isSome_eq_contains f rb
        rw [hfb] at this
        exact List.elem_iff.mp this.symm
      have hfS : f ∈ collisionSet keys ra rb := by
        refine List.mem_filter.mpr ⟨hfa', ?_⟩
        rw [Bool.and_eq_true]
        refine ⟨hfb, ?_⟩
        have : keys.contains f = false := by
          rw [← Bool.not_eq_true]
          intro hc
          exact hfk (List.elem_iff.mp hc)
        rw [this]
        rfl
      have hfS' : f ∈ collisionSet keys rb ra := by
        refine List.mem_filter.mpr ⟨hfb', ?_⟩
        rw [Bool.and_eq_true]
        refine ⟨hfa, ?_⟩
        have : keys.contains f = false := by
          rw [← Bool.not_eq_true]
          intro hc
          exact hfk (List.elem_iff.mp hc)
        rw [this]
        rfl
      constructor
      · have hlra : List.lookup (f ++ "_1")
            (renameRow "_1" (collisionSet keys ra rb) ra) = List.lookup f ra := by
          refine lookup_renameRow_eq "_1" _ ra (f ++ "_1") f ?_
          intro g hg
          constructor
          · intro hren
            by_cases hgS : (collisionSet keys ra rb).contains g
            · rw [if_pos hgS] at hren
              exact string_append_right_cancel hren
            · rw [if_neg hgS] at hren
              exact absurd (hren ▸ hg) hf1a
          · intro hgf
            subst hgf
            rw [if_pos (List.elem_iff.mpr hfS)]
        have hlrb : List.lookup (f ++ "_1")
            (renameRow "_2" (collisionSet keys rb ra) rb) = none := by
          refine lookup_renameRow_none "_2" _ rb (f ++ "_1") ?_
          intro g hg
          by_cases hgS : (collisionSet keys rb ra).contains g
          · rw [if_pos hgS]
            exact fun h => append_s1_ne_append_s2 f g h.symm
          · rw [if_neg hgS]
            exact fun h => hf1b (h ▸ hg)
        rw [pairMergedRow, mergePair, lookup_dictUnion, hlra, hlrb]
        cases hv : List.lookup f ra with
        | none => simp [hv] at hfa
        | some v => simp
      · have hlra : List.lookup (f ++ "_2")
            (renameRow "_1" (collisionSet keys ra rb) ra) = none := by
          refine lookup_renameRow_none "_1" _ ra (f ++ "_2") ?_
          intro g hg
          by_cases hgS : (collisionSet keys ra rb).contains g
          · rw [if_pos hgS]
            exact fun h => append_s1_ne_append_s2 g f h
          · rw [if_neg hgS]
            exact fun h => hf2a (h ▸ hg)
        have hlrb : List.lookup (f ++ "_2")
            (renameRow "_2" (collisionSet keys rb ra) rb) = List.lookup f rb := by
          refine lookup_renameRow_eq "_2" _ rb (f ++ "_2") f ?_
          intro g hg
          constructor
          · intro hren
            by_cases hgS : (collisionSet keys rb ra).contains g
            · rw [if_pos hgS] at hren
              exact string_append_right_cancel hren
            · rw [if_neg hgS] at hren
              exact absurd (hren ▸ hg) hf2b
          · intro hgf
            subst hgf
            rw [if_pos (List.elem_iff.mpr hfS')]
        rw [pairMergedRow, mergePair, lookup_dictUnion, hlra, hlrb]
    · intro k hk hfresh
      have hra1 : List.lookup k
          (renameRow "_1" (collisionSet keys ra rb) ra) = List.lookup k ra := by
        refine lookup_renameRow_eq "_1" _ ra k k ?_
        intro g hg
        constructor
        · intro hren
          by_cases hgS : (collisionSet keys ra rb).contains g
          · rw [if_pos hgS] at hren
            exact absurd hren (hfresh g (List.mem_append_left _ hg)).1
          · rwa [if_neg hgS] at hren
        · intro hgk
          subst hgk
          have : ¬ (collisionSet keys ra rb).contains g := by
            intro hc
            exact key_not_mem_collisionSet hk ra rb (List.elem_iff.mp hc)
          rw [if_neg this]
      have hrb2 : List.lookup k
          (renameRow "_2" (collisionSet keys rb ra) rb) = List.lookup k rb := by
        refine lookup_renameRow_eq "_2" _ rb k k ?_
        intro g hg
        constructor
        · intro hren
          by_cases hgS : (collisionSet keys rb ra).contains g
          · rw [if_pos hgS] at hren
            exact absurd hren (hfresh g (List.mem_append_right _ hg)).2
          · rwa [if_neg hgS] at hren
        · intro hgk
          subst hgk
          have : ¬ (collisionSet keys rb ra).contains g := by
            intro hc
            exact key_not_mem_collisionSet hk rb ra (List.elem_iff.mp hc)
          rw [if_neg this]
      rw [pairMergedRow, mergePair, lookup_dictUnion, hra1, hrb2,
        lookup_dictUnion]

/-- Witness for the amended C2 at a concrete input. -/
theorem C2_join_suffix_policy_witness :
    List.lookup ("b" ++ "_1") (pairMergedRow ["k"]
        [("k", Value.vInt 1), ("b", Value.vInt 2)]
        [("k", Value.vInt 1), ("b", Value.vInt 10)]) =
      List.lookup "b" [("k", Value.vInt 1), ("b", Value.vInt 2)] ∧
    List.lookup ("b" ++ "_2") (pairMergedRow ["k"]
        [("k", Value.vInt 1), ("b", Value.vInt 2)]
        [("k", Value.vInt 1), ("b", Value.vInt 10)]) =
      List.lookup "b" [("k", Value.vInt 1), ("b", Value.vInt 10)] := by
  have h := C2_join_suffix_policy ["k"]
    [[("k", Value.vInt 1), ("b", Value.vInt 2)],
     [("k", Value.vInt 1), ("b", Value.vInt 3)]]
    [[("k", Value.vInt 1), ("b", Value.vInt 10)]]
    [("k", Value.vInt 1), ("b", Value.vInt 2)]
    [("k", Value.vInt 1), ("b", Value.vInt 10)]
    [[("k", Value.vInt 1), ("b", Value.vInt 3)]] [] rfl rfl
    (by decide) (by decide)
  have h2 := (h.2 [("k", Value.vInt 1), ("b", Value.vInt 2)] (by decide)
    [("k", Value.vInt 1), ("b", Value.vInt 10)] (by decide)).1 "b"
    (by decide) (by decide) (by decide) (by decide) (by decide)
    (by decide) (by decide)
  exact ⟨h2.1, h2.2⟩
